import Mathlib

/-!
Shallow embedding of the staking contract in `src/main.rs`
(struct `Contract` with methods `new`, `stake`, `distribute_rewards`).

Modelling conventions:
* `u64` values are `Nat`; an operation that overflows `u64` (product or sum
  reaching `2 ^ 64`) panics in a debug build, and a panic is modelled as the
  absence of a result (`Option.none`, or the failure flag of `stake`).
* `DateTime<Utc>` timestamps are `Int` (seconds); `chrono::Duration::days(7)`
  is the constant `sevenDays = 7 * 86400` seconds.
* `HashMap<String, u64>` is an association list `List (String × Nat)` whose
  keys are unique in every reachable state; `HashMap::insert` is
  `insertStaker` (replace in place if the key is present, else append).
  The list order stands for the map's incidental iteration order, which for
  `std::collections::HashMap` is not fixed across map instances.
-/

/-- One more than the largest `u64` value: `u64` arithmetic stays below this. -/
def u64Max : Nat := 2 ^ 64

/-- Seven days in seconds, the value of `chrono::Duration::days(7)`. -/
def sevenDays : Int := 7 * 86400

/-- The struct `Contract` of `src/main.rs`: reward pool `total_coins`,
the stakers map, and the creation timestamp `start_date`. -/
structure Contract where
  total_coins : Nat
  stakers : List (String × Nat)
  start_date : Int
deriving Repr, DecidableEq

/-- The single failure of `stake`. In the source it is raised as the panic
with message "Cannot stake after 7 days"; the spec names this failure
`DeadlineExceeded`. -/
inductive StakeFailure where
  | deadlineExceeded
deriving Repr, DecidableEq

/-- `HashMap::insert` on the association-list model: if the key is present,
replace its entry; otherwise append a new entry. -/
def insertStaker (user : String) (amount : Nat) : List (String × Nat) → List (String × Nat)
  | [] => [(user, amount)]
  | p :: rest =>
      if p.1 = user then (user, amount) :: rest
      else p :: insertStaker user amount rest

/-- `HashMap::get` on the association-list model. -/
def lookupStaker (user : String) : List (String × Nat) → Option Nat
  | [] => none
  | p :: rest => if p.1 = user then some p.2 else lookupStaker user rest

/-- Number of entries of the map carrying the given key. -/
def countKey (user : String) : List (String × Nat) → Nat
  | [] => 0
  | p :: rest => (if p.1 = user then 1 else 0) + countKey user rest

/-- `Contract::new`: captures the current time as `start_date` and starts
with an empty stakers map. The current time is passed explicitly. -/
def Contract.new (total_coins : Nat) (now : Int) : Contract :=
  { total_coins := total_coins, stakers := [], start_date := now }

/-- `Contract::stake`: if the current time is at or after
`start_date + 7 days`, the panic "Cannot stake after 7 days" fires before any
mutation (modelled as the failure flag, the state returned unchanged);
otherwise the entry for `user` is inserted, overwriting any previous one. -/
def Contract.stake (c : Contract) (now : Int) (user : String) (amount : Nat) :
    Contract × Option StakeFailure :=
  if c.start_date + sevenDays ≤ now then
    (c, some StakeFailure.deadlineExceeded)
  else
    ({ c with stakers := insertStaker user amount c.stakers }, none)

/-- `self.stakers.values().sum::<u64>()`, as an unbounded natural number. -/
def totalStaked (c : Contract) : Nat :=
  (c.stakers.map Prod.snd).sum

/-- The loop body of `distribute_rewards`: for each entry, compute
`amount * total_coins` (a `u64` product, so reaching `2 ^ 64` panics in a
debug build) and divide by `total_staked` (dividing by zero panics). A panic
anywhere yields `none`. -/
def rewardsLoop (total_coins total_staked : Nat) :
    List (String × Nat) → Option (List (String × Nat))
  | [] => some []
  | p :: rest =>
      if u64Max ≤ p.2 * total_coins then none
      else if total_staked = 0 then none
      else
        match rewardsLoop total_coins total_staked rest with
        | some rs => some ((p.1, p.2 * total_coins / total_staked) :: rs)
        | none => none

/-- `Contract::distribute_rewards`: sum the stakes (the `u64` running sum
panics in a debug build when it reaches `2 ^ 64`), then run the reward loop
over the map entries in iteration order. -/
def Contract.distribute_rewards (c : Contract) : Option (List (String × Nat)) :=
  if u64Max ≤ totalStaked c then none
  else rewardsLoop c.total_coins (totalStaked c) c.stakers

/-- `distribute_rewards` takes `&self` (an immutable borrow, and `Contract`
has no interior mutability), so as a state transformer it returns the
contract unchanged next to its result. -/
def Contract.distribute_rewards_call (c : Contract) :
    (Option (List (String × Nat))) × Contract :=
  (c.distribute_rewards, c)

/-! Helper lemmas about the association-list model of the stakers map. -/

/-- Any key of the map after an insert is the inserted key or an old key. -/
theorem keys_insertStaker (u : String) (a : Nat) :
    ∀ (l : List (String × Nat)) (x : String),
      x ∈ (insertStaker u a l).map Prod.fst → x = u ∨ x ∈ l.map Prod.fst := by
  intro l
  induction l with
  | nil =>
      intro x hx
      simp [insertStaker] at hx
      exact Or.inl hx
  | cons p rest ih =>
      intro x hx
      by_cases hk : p.1 = u
      · simp only [insertStaker, if_pos hk, List.map_cons, List.mem_cons] at hx
        rcases hx with hx | hx
        · exact Or.inl hx
        · exact Or.inr (by simp [List.mem_cons, hx])
      · simp only [insertStaker, if_neg hk, List.map_cons, List.mem_cons] at hx
        rcases hx with hx | hx
        · exact Or.inr (by simp [List.mem_cons, hx])
        · rcases ih x hx with h2 | h2
          · exact Or.inl h2
          · exact Or.inr (by simp [List.mem_cons, h2])

/-- Inserting preserves uniqueness of the map's keys. -/
theorem nodup_keys_insertStaker (u : String) (a : Nat) :
    ∀ l : List (String × Nat), (l.map Prod.fst).Nodup →
      ((insertStaker u a l).map Prod.fst).Nodup := by
  intro l
  induction l with
  | nil => intro _; simp [insertStaker]
  | cons p rest ih =>
      intro hnd
      simp only [List.map_cons, List.nodup_cons] at hnd
      by_cases hk : p.1 = u
      · simp only [insertStaker, if_pos hk, List.map_cons, List.nodup_cons]
        exact ⟨hk ▸ hnd.1, hnd.2⟩
      · simp only [insertStaker, if_neg hk, List.map_cons, List.nodup_cons]
        refine ⟨fun hmem => ?_, ih hnd.2⟩
        rcases keys_insertStaker u a rest p.1 hmem with h | h
        · exact hk h
        · exact hnd.1 h

/-- A key that is absent from the map is counted zero times. -/
theorem countKey_eq_zero_of_not_mem (u : String) :
    ∀ l : List (String × Nat), u ∉ l.map Prod.fst → countKey u l = 0 := by
  intro l
  induction l with
  | nil => intro _; rfl
  | cons p rest ih =>
      intro hu
      simp only [List.map_cons, List.mem_cons, not_or] at hu
      have hp : ¬ p.1 = u := fun h => hu.1 h.symm
      simp [countKey, if_neg hp, ih hu.2]

/-- After inserting a key into a map with unique keys, that key has exactly
one entry. -/
theorem countKey_insertStaker (u : String) (a : Nat) :
    ∀ l : List (String × Nat), (l.map Prod.fst).Nodup →
      countKey u (insertStaker u a l) = 1 := by
  intro l
  induction l with
  | nil => intro _; simp [insertStaker, countKey]
  | cons p rest ih =>
      intro hnd
      simp only [List.map_cons, List.nodup_cons] at hnd
      by_cases hk : p.1 = u
      · simp only [insertStaker, if_pos hk, countKey, if_pos rfl]
        have : u ∉ rest.map Prod.fst := hk ▸ hnd.1
        simp [countKey_eq_zero_of_not_mem u rest this]
      · simp [insertStaker, if_neg hk, countKey, if_neg hk, ih hnd.2]

/-- Looking up the inserted key returns the inserted amount. -/
theorem lookupStaker_insertStaker (u : String) (a : Nat) :
    ∀ l : List (String × Nat), lookupStaker u (insertStaker u a l) = some a := by
  intro l
  induction l with
  | nil => simp [insertStaker, lookupStaker]
  | cons p rest ih =>
      by_cases hk : p.1 = u
      · simp [insertStaker, if_pos hk, lookupStaker]
      · simp [insertStaker, if_neg hk, lookupStaker, ih]

/-- Floor division is superadditive: the floors of two shares never exceed
the floor of their sum. -/
theorem div_add_div_le_add_div (a b c : Nat) (hc : 0 < c) :
    a / c + b / c ≤ (a + b) / c := by
  rw [Nat.le_div_iff_mul_le hc, Nat.add_mul]
  exact Nat.add_le_add (Nat.div_mul_le_self a c) (Nat.div_mul_le_self b c)

/-- When the reward loop completes, the rewards it produced sum to at most
the loop's stake total times the pool, floor-divided by the divisor. -/
theorem rewardsLoop_sum_le (r s : Nat) (hs : 0 < s) :
    ∀ (l : List (String × Nat)) (out : List (String × Nat)),
      rewardsLoop r s l = some out →
      (out.map Prod.snd).sum ≤ (l.map Prod.snd).sum * r / s := by
  intro l
  induction l with
  | nil =>
      intro out h
      simp [rewardsLoop] at h
      subst h
      simp
  | cons p rest ih =>
      intro out h
      simp only [rewardsLoop] at h
      by_cases h1 : u64Max ≤ p.2 * r
      · rw [if_pos h1] at h; exact absurd h (by simp)
      · rw [if_neg h1, if_neg hs.ne'] at h
        cases hr : rewardsLoop r s rest with
        | none => rw [hr] at h; exact absurd h (by simp)
        | some rs =>
            rw [hr] at h
            have hout : out = (p.1, p.2 * r / s) :: rs := by
              exact (Option.some.injEq _ _ ▸ h).symm
            subst hout
            have hrest := ih rs hr
            calc (((p.1, p.2 * r / s) :: rs).map Prod.snd).sum
                = p.2 * r / s + (rs.map Prod.snd).sum := by simp
              _ ≤ p.2 * r / s + (rest.map Prod.snd).sum * r / s :=
                  Nat.add_le_add_left hrest _
              _ ≤ (p.2 * r + (rest.map Prod.snd).sum * r) / s :=
                  div_add_div_le_add_div _ _ _ hs
              _ = (p.2 + (rest.map Prod.snd).sum) * r / s := by rw [Nat.add_mul]
              _ = ((p :: rest).map Prod.snd).sum * r / s := by simp

/-- When the divisor is nonzero and no per-entry product overflows, the
reward loop completes and maps each entry to its floor share. -/
theorem rewardsLoop_eq_map (r s : Nat) (hs : s ≠ 0) :
    ∀ l : List (String × Nat), (∀ p ∈ l, p.2 * r < u64Max) →
      rewardsLoop r s l = some (l.map fun p => (p.1, p.2 * r / s)) := by
  intro l
  induction l with
  | nil => intro _; simp [rewardsLoop]
  | cons p rest ih =>
      intro hall
      have hp : p.2 * r < u64Max := hall p (List.mem_cons_self p rest)
      have htail := ih fun q hq => hall q (List.mem_cons_of_mem p hq)
      simp only [rewardsLoop, if_neg (Nat.not_le.mpr hp), if_neg hs, htail, List.map_cons]

/-! Claim theorems. -/

/-- C2: a `stake` call strictly before `start_date + 7 days` succeeds and
inserts the entry; a call at or after that deadline fails with the deadline
failure and returns the contract, its stakers map included, exactly as it
was before the call. -/
theorem C2_deadline_gating (c : Contract) (now : Int) (u : String) (a : Nat) :
    (now < c.start_date + sevenDays →
      c.stake now u a = ({ c with stakers := insertStaker u a c.stakers }, none)) ∧
    (c.start_date + sevenDays ≤ now →
      c.stake now u a = (c, some StakeFailure.deadlineExceeded)) := by
  constructor
  · intro h
    simp [Contract.stake, if_neg (not_le.mpr h)]
  · intro h
    simp [Contract.stake, if_pos h]

/-- Witness for C2 at concrete inputs: one second after creation the stake
is recorded; at exactly seven days it fails and the state is unchanged. -/
theorem C2_deadline_gating_witness :
    (Contract.new 100 0).stake 1 "Alice" 5 =
      ({ total_coins := 100, stakers := [("Alice", 5)], start_date := 0 }, none) ∧
    (Contract.new 100 0).stake 604800 "Bob" 7 =
      (Contract.new 100 0, some StakeFailure.deadlineExceeded) := by
  constructor
  · rw [(C2_deadline_gating (Contract.new 100 0) 1 "Alice" 5).1 (by decide)]
    decide
  · exact (C2_deadline_gating (Contract.new 100 0) 604800 "Bob" 7).2 (by decide)

/-- C3: at the deadline, control reaches the failure branch of `stake`. In
the source this branch is `panic!("Cannot stake after 7 days")` — a
process-terminating fault, not the `Result<(), DeadlineExceeded>` value the
spec mandates; the method's return type is `()`. The state is untouched at
the moment of the panic. -/
theorem C3_panic_at_deadline :
    ((Contract.new 1000000 0).stake 604800 "Carol" 100).2 =
      some StakeFailure.deadlineExceeded ∧
    ((Contract.new 1000000 0).stake 604800 "Carol" 100).1 = Contract.new 1000000 0 := by
  decide

/-- C4: on an empty map `distribute_rewards` returns the empty sequence, but
on a non-empty map whose amounts are all zero it divides by
`total_staked = 0`, which panics (modelled as `none`) instead of returning
an empty sequence. -/
theorem C4_zero_total_divides_by_zero :
    Contract.distribute_rewards
        { total_coins := 1000000, stakers := [("Alice", 0)], start_date := 0 } = none ∧
    Contract.distribute_rewards
        { total_coins := 1000000, stakers := [], start_date := 0 } = some [] := by
  decide

/-- C7: `distribute_rewards` borrows the contract immutably, so the call
leaves the whole state (in particular the stakers map) unchanged, and two
consecutive calls with no intervening `stake` return identical results. -/
theorem C7_pure_idempotent (c : Contract) :
    c.distribute_rewards_call.2 = c ∧
    c.distribute_rewards_call.2.stakers = c.stakers ∧
    c.distribute_rewards_call.2.distribute_rewards_call.1 = c.distribute_rewards_call.1 :=
  ⟨rfl, rfl, rfl⟩

/-- C6: two successful `stake` calls for the same identity leave exactly one
entry for that identity, holding the second call's amount: the second call
overwrites the first, with no accumulation. -/
theorem C6_restake_overwrites (c : Contract) (u : String) (a1 a2 : Nat) (t1 t2 : Int)
    (hnd : (c.stakers.map Prod.fst).Nodup)
    (h1 : t1 < c.start_date + sevenDays)
    (h2 : t2 < c.start_date + sevenDays) :
    (c.stake t1 u a1).2 = none ∧
    ((c.stake t1 u a1).1.stake t2 u a2).2 = none ∧
    countKey u ((c.stake t1 u a1).1.stake t2 u a2).1.stakers = 1 ∧
    lookupStaker u ((c.stake t1 u a1).1.stake t2 u a2).1.stakers = some a2 := by
  have e1 : c.stake t1 u a1 = ({ c with stakers := insertStaker u a1 c.stakers }, none) := by
    simp [Contract.stake, if_neg (not_le.mpr h1)]
  have e2 : ({ c with stakers := insertStaker u a1 c.stakers } : Contract).stake t2 u a2 =
      ({ c with stakers := insertStaker u a2 (insertStaker u a1 c.stakers) }, none) := by
    simp [Contract.stake, if_neg (not_le.mpr h2)]
  rw [e1]
  simp only [e2]
  refine ⟨trivial, trivial, ?_, lookupStaker_insertStaker u a2 _⟩
  exact countKey_insertStaker u a2 _ (nodup_keys_insertStaker u a1 c.stakers hnd)

/-- Witness for C6: staking "Alice" 5 then "Alice" 9 before the deadline
leaves exactly one "Alice" entry, holding 9. -/
theorem C6_restake_overwrites_witness :
    countKey "Alice" (((Contract.new 100 0).stake 0 "Alice" 5).1.stake 1 "Alice" 9).1.stakers = 1 ∧
    lookupStaker "Alice"
      (((Contract.new 100 0).stake 0 "Alice" 5).1.stake 1 "Alice" 9).1.stakers = some 9 := by
  have h := C6_restake_overwrites (Contract.new 100 0) "Alice" 5 9 0 1
    (by decide) (by decide) (by decide)
  exact ⟨h.2.2.1, h.2.2.2⟩

/-- C10: `stake` does not validate the participant identity: before the
deadline, a call with the empty string as identity succeeds and records an
entry keyed by the empty string, like any other key. -/
theorem C10_no_identity_validation (c : Contract) (a : Nat) (t : Int)
    (h : t < c.start_date + sevenDays) :
    (c.stake t "" a).2 = none ∧
    lookupStaker "" (c.stake t "" a).1.stakers = some a := by
  have e : c.stake t "" a = ({ c with stakers := insertStaker "" a c.stakers }, none) := by
    simp [Contract.stake, if_neg (not_le.mpr h)]
  rw [e]
  exact ⟨rfl, lookupStaker_insertStaker "" a c.stakers⟩

/-- Witness for C10: the empty identity staked 7 coins one second after
creation is recorded under the key "". -/
theorem C10_no_identity_validation_witness :
    ((Contract.new 50 0).stake 1 "" 7).2 = none ∧
    lookupStaker "" ((Contract.new 50 0).stake 1 "" 7).1.stakers = some 7 :=
  C10_no_identity_validation (Contract.new 50 0) 7 1 (by decide)

/-- C1, counterexample to the unqualified claim: a pool with
`total_coins = 2 ^ 63` and the single stake ("A", 4) has
`total_staked = 4 > 0`, yet `distribute_rewards` does not return the floor
shares: the `u64` product `4 * 2 ^ 63 = 2 ^ 65` overflows, which panics in a
debug build (modelled as `none`; a release build would wrap to the share 0
instead of `floor(4 * 2 ^ 63 / 4) = 2 ^ 63`). -/
theorem C1_overflow_counterexample :
    0 < totalStaked { total_coins := 2 ^ 63, stakers := [("A", 4)], start_date := 0 } ∧
    Contract.distribute_rewards
      { total_coins := 2 ^ 63, stakers := [("A", 4)], start_date := 0 } = none := by
  decide

/-- C1, amended: when `total_staked` is positive and the `u64` arithmetic
does not overflow (the stake total and every product
`amount * total_coins` fit in a `u64`), `distribute_rewards` returns, for
each recorded participant in order, the truncated share
`amount * total_coins / total_staked`. -/
theorem C1_floor_shares (c : Contract)
    (hpos : 0 < totalStaked c)
    (hsum : totalStaked c < u64Max)
    (hprod : ∀ p ∈ c.stakers, p.2 * c.total_coins < u64Max) :
    c.distribute_rewards =
      some (c.stakers.map fun p => (p.1, p.2 * c.total_coins / totalStaked c)) := by
  unfold Contract.distribute_rewards
  rw [if_neg (Nat.not_le.mpr hsum)]
  exact rewardsLoop_eq_map c.total_coins (totalStaked c) hpos.ne' c.stakers hprod

/-- Witness for C1 as amended, the repository's own test scenario: stakes
Alice 5000 and Bob 20000 with pool 1000000 yield 200000 and 800000. -/
theorem C1_floor_shares_witness :
    Contract.distribute_rewards
        { total_coins := 1000000, stakers := [("Alice", 5000), ("Bob", 20000)], start_date := 0 } =
      some [("Alice", 200000), ("Bob", 800000)] := by
  rw [C1_floor_shares
    { total_coins := 1000000, stakers := [("Alice", 5000), ("Bob", 20000)], start_date := 0 }
    (by decide) (by decide) (by decide)]
  decide

/-- C5: whenever `distribute_rewards` returns a reward sequence, the rewards
sum to at most `total_coins`: truncating division never over-distributes. -/
theorem C5_sum_of_rewards_le (c : Contract) (rws : List (String × Nat))
    (h : c.distribute_rewards = some rws) :
    (rws.map Prod.snd).sum ≤ c.total_coins := by
  unfold Contract.distribute_rewards at h
  by_cases hb : u64Max ≤ totalStaked c
  · rw [if_pos hb] at h; exact absurd h (by simp)
  · rw [if_neg hb] at h
    by_cases hs : totalStaked c = 0
    · cases hst : c.stakers with
      | nil =>
          rw [hst] at h
          simp only [rewardsLoop, Option.some.injEq] at h
          subst h
          simp
      | cons p rest =>
          rw [hst, hs] at h
          simp [rewardsLoop] at h
    · have hs' : 0 < totalStaked c := Nat.pos_of_ne_zero hs
      have := rewardsLoop_sum_le c.total_coins (totalStaked c) hs' c.stakers rws h
      calc (rws.map Prod.snd).sum
          ≤ (c.stakers.map Prod.snd).sum * c.total_coins / totalStaked c := this
        _ = totalStaked c * c.total_coins / totalStaked c := rfl
        _ = c.total_coins := Nat.mul_div_cancel_left c.total_coins hs'

/-- Witness for C5 on the repository's own test scenario: 200000 + 800000
does not exceed the pool of 1000000. -/
theorem C5_sum_of_rewards_le_witness :
    (([("Alice", 200000), ("Bob", 800000)] : List (String × Nat)).map Prod.snd).sum ≤ 1000000 :=
  C5_sum_of_rewards_le
    { total_coins := 1000000, stakers := [("Alice", 5000), ("Bob", 20000)], start_date := 0 }
    [("Alice", 200000), ("Bob", 800000)] (by decide)

/-- C8: a pool whose state is otherwise well-formed (positive stake total
that fits in a `u64`) can still make the product `amount * total_coins`
reach `2 ^ 64`: with `total_coins = 2 ^ 32` and the single stake
("B", 2 ^ 32), the multiplication overflows, which panics in a debug build
(modelled as `none`) and silently wraps in release — not a defined,
explicit, non-crashing behavior. -/
theorem C8_overflow_is_a_fault :
    0 < totalStaked { total_coins := 2 ^ 32, stakers := [("B", 2 ^ 32)], start_date := 0 } ∧
    totalStaked { total_coins := 2 ^ 32, stakers := [("B", 2 ^ 32)], start_date := 0 } < u64Max ∧
    Contract.distribute_rewards
      { total_coins := 2 ^ 32, stakers := [("B", 2 ^ 32)], start_date := 0 } = none := by
  decide

/-- C9: the output order of `distribute_rewards` follows the map's
iteration order: two pools holding the same entries (a permutation of each
other, hence equal as maps) produce different reward sequences. Since
`std::collections::HashMap` iteration order is randomized per map instance,
the order is not deterministic across equal pools. -/
theorem C9_order_follows_iteration_order :
    List.Perm ([("Alice", 5000), ("Bob", 20000)] : List (String × Nat))
      [("Bob", 20000), ("Alice", 5000)] ∧
    Contract.distribute_rewards
        { total_coins := 1000000, stakers := [("Alice", 5000), ("Bob", 20000)], start_date := 0 } ≠
      Contract.distribute_rewards
        { total_coins := 1000000, stakers := [("Bob", 20000), ("Alice", 5000)], start_date := 0 } := by
  constructor
  · exact List.Perm.swap ("Bob", 20000) ("Alice", 5000) []
  · decide
